import Mathlib

/-!
Verification of the transmission-packet decoder and evaluator of
day 16 (src/day_16/main.py).

The bit stream is modelled as a list of booleans holding the still-unread
bits; reading advances by dropping a prefix, so the cursor position of the
source corresponds to the number of bits consumed, recoverable as the
difference of list lengths.  Fixed-width unsigned reads, the literal group
loop, the two operator framing modes and the polymorphic dispatch on the
peeked type id are translated function by function from the source.  The
sub-packet while loop and the top-level recursive decoder take an explicit
fuel argument, since Lean requires all functions to be total; the theorem
for the termination claim shows that fuel exceeding the number of unread
bits is never exhausted.
-/

namespace Day16

/-- A decoded packet: either a literal value or an operator over
sub-packets (the two dataclasses of the source; a literal's type id is
fixed to 4 there, so it is not stored). -/
inductive Packet where
  | literal (version : Nat) (value : Nat) : Packet
  | operator (version : Nat) (type_id : Nat) (sub_packets : List Packet) : Packet

/-- The two kinds of decode failure: a read past the end of the stream
(bitstring's ReadError) and a type-id check failure (the ValueError raised
by the source, called MalformedPacket by the specification). -/
inductive DecodeError where
  | outOfBits
  | malformed
deriving DecidableEq

/-- Outcome of decoding one packet: the packet together with the unread
rest of the stream, an error, or fuel exhaustion (a modelling artifact,
shown unreachable for sufficient fuel). -/
inductive ParseResult where
  | ok (p : Packet) (rest : List Bool)
  | err (e : DecodeError)
  | fuelOut

/-- Outcome of the sub-packet while loop. -/
inductive LoopResult where
  | ok (ps : List Packet) (rest : List Bool)
  | err (e : DecodeError)
  | fuelOut

/-- Value of a bit string read most-significant-bit first. -/
def bitsToNat (bs : List Bool) : Nat :=
  bs.foldl (fun acc b => 2 * acc + (if b then 1 else 0)) 0

/-- bits.read with format uint:n — consume n bits MSB-first, failing when
fewer than n bits remain. -/
def readUint (n : Nat) (bs : List Bool) : Option (Nat × List Bool) :=
  if n ≤ bs.length then some (bitsToNat (bs.take n), bs.drop n) else none

/-- The literal body loop of Literal.from_bits: read one continuation bit
and four value bits per group, accumulating value := value * 16 + group,
until a group whose continuation bit is 0; fails when bits run out. -/
def Literal.read_groups : List Bool → Nat → Option (Nat × List Bool)
  | c :: b3 :: b2 :: b1 :: b0 :: rest, value =>
    let value' := value * 16 + bitsToNat [b3, b2, b1, b0]
    if c then Literal.read_groups rest value' else some (value', rest)
  | _, _ => none

/-- Literal.from_bits of the source: read version and type id, check the
type id is 4, then read the group-encoded value. -/
def Literal.from_bits (bs : List Bool) : ParseResult :=
  match readUint 3 bs with
  | none => .err .outOfBits
  | some (version, bs1) =>
    match readUint 3 bs1 with
    | none => .err .outOfBits
    | some (type_id, bs2) =>
      if type_id ≠ 4 then .err .malformed
      else
        match Literal.read_groups bs2 0 with
        | none => .err .outOfBits
        | some (value, bs3) => .ok (.literal version value) bs3

/-- Comparison with a possibly infinite bound (the source compares against
float inf on the side that is not limited); none stands for infinity. -/
def lt_inf (a : Nat) : Option Nat → Bool
  | none => true
  | some b => decide (a < b)

/-- The sub-packet while loop of Operator.from_bits: while n_parsed is
below the sub-packet count and the bits consumed since the loop started
(start minus the current length) are below the bit budget, decode one
sub-packet with f and append it.  f stands for the peek-and-dispatch step
of the loop body; fuel bounds the number of iterations. -/
def Operator.sub_packet_loop (f : List Bool → ParseResult) :
    Nat → Nat → Nat → Option Nat → Option Nat → List Bool → List Packet → LoopResult
  | 0, _, _, _, _, _, _ => .fuelOut
  | k + 1, start, n_parsed, n_subpackets, subpacket_bits, bs, acc =>
    if lt_inf n_parsed n_subpackets && lt_inf (start - bs.length) subpacket_bits then
      match f bs with
      | .ok p rest =>
        Operator.sub_packet_loop f k start (n_parsed + 1) n_subpackets subpacket_bits rest
          (acc ++ [p])
      | .err e => .err e
      | .fuelOut => .fuelOut
    else .ok acc bs

/-- The tail of Operator.from_bits after the length field has been read:
run the sub-packet loop from the current stream position and wrap the
collected sub-packets into an Operator packet.  The loop fuel, one more
than the number of unread bits, is shown sufficient whenever each call to
f consumes at least one bit. -/
def Operator.run_loop (f : List Bool → ParseResult) (version type_id : Nat)
    (n_subpackets subpacket_bits : Option Nat) (bs4 : List Bool) : ParseResult :=
  match Operator.sub_packet_loop f (bs4.length + 1) bs4.length 0 n_subpackets
      subpacket_bits bs4 [] with
  | .ok subs rest => .ok (.operator version type_id subs) rest
  | .err e => .err e
  | .fuelOut => .fuelOut

/-- Operator.from_bits of the source: read version and type id, check the
type id is not 4, read the length type bit, then either a 15-bit total
sub-packet bit length (length type 0, unlimited count) or an 11-bit
sub-packet count (length type 1, unlimited bit budget), and run the
sub-packet loop.  The sub-packet decoding step f is a parameter; the
top-level decoder passes itself. -/
def Operator.from_bits (f : List Bool → ParseResult) (bs : List Bool) : ParseResult :=
  match readUint 3 bs with
  | none => .err .outOfBits
  | some (version, bs1) =>
    match readUint 3 bs1 with
    | none => .err .outOfBits
    | some (type_id, bs2) =>
      if type_id = 4 then .err .malformed
      else
        match readUint 1 bs2 with
        | none => .err .outOfBits
        | some (length_type_id, bs3) =>
          if length_type_id = 0 then
            match readUint 15 bs3 with
            | none => .err .outOfBits
            | some (subpacket_bits, bs4) =>
              Operator.run_loop f version type_id none (some subpacket_bits) bs4
          else
            match readUint 11 bs3 with
            | none => .err .outOfBits
            | some (n_subpackets, bs4) =>
              Operator.run_loop f version type_id (some n_subpackets) none bs4

/-- from_bits of the source: peek the six header bits (failing with
OutOfBits when fewer remain, as peeklist does), dispatch on the peeked
type id to Literal.from_bits or Operator.from_bits.  The fuel argument
bounds the depth of recursion through operator packets. -/
def from_bits : Nat → List Bool → ParseResult
  | 0, _ => .fuelOut
  | d + 1, bs =>
    if bs.length < 6 then .err .outOfBits
    else if bitsToNat ((bs.drop 3).take 3) = 4 then Literal.from_bits bs
    else Operator.from_bits (from_bits d) bs

mutual

/-- version_sum of the source: a literal contributes its version, an
operator its version plus the sum over its sub-packets. -/
def version_sum : Packet → Nat
  | .literal version _ => version
  | .operator version _ sub_packets => version + version_sum_list sub_packets

/-- Sum of version_sum over a list of packets. -/
def version_sum_list : List Packet → Nat
  | [] => 0
  | p :: ps => version_sum p + version_sum_list ps

end

mutual

/-- calculate of the source.  A packet whose type id is 4 yields its
value (an operator carrying type id 4 would hit an attribute error in the
source, modelled as none); otherwise all sub-packets are evaluated first
(any failure propagating), and the operation selected by the type id is
applied: sum, product, min, max, or a comparison of the first two values,
with min and max of an empty list and a missing comparison operand
failing as in the source. -/
def calculate : Packet → Option Nat
  | .literal _ value => some value
  | .operator _ type_id sub_packets =>
    if type_id = 4 then none
    else
      match calc_list sub_packets with
      | none => none
      | some sps =>
        if type_id = 0 then some sps.sum
        else if type_id = 1 then some (sps.foldl (· * ·) 1)
        else if type_id = 2 then
          match sps with
          | [] => none
          | x :: xs => some (xs.foldl Nat.min x)
        else if type_id = 3 then
          match sps with
          | [] => none
          | x :: xs => some (xs.foldl Nat.max x)
        else if type_id = 5 then
          match sps with
          | a :: b :: _ => some (if b < a then 1 else 0)
          | _ => none
        else if type_id = 6 then
          match sps with
          | a :: b :: _ => some (if a < b then 1 else 0)
          | _ => none
        else if type_id = 7 then
          match sps with
          | a :: b :: _ => some (if a = b then 1 else 0)
          | _ => none
        else none

/-- Evaluation of every packet of a list, failing when any one fails (the
list comprehension of the source evaluates all sub-packets). -/
def calc_list : List Packet → Option (List Nat)
  | [] => some []
  | p :: ps =>
    match calculate p, calc_list ps with
    | some v, some vs => some (v :: vs)
    | _, _ => none

end

/-- A bit list written with the digits 0 and 1, for concrete streams. -/
def bits01 (l : List Nat) : List Bool := l.map (· == 1)

/-- Expansion of hexadecimal digits to bits, four per digit,
most-significant-bit first (the ConstBitStream hex constructor). -/
def hex_bits (digits : List Nat) : List Bool :=
  (digits.map (fun d => [d.testBit 3, d.testBit 2, d.testBit 1, d.testBit 0])).flatten

/-- Decode a hex input with ample fuel and evaluate the packet, as the
main block of the source does. -/
def evaluate_hex (digits : List Nat) : Option Nat :=
  match from_bits ((hex_bits digits).length + 1) (hex_bits digits) with
  | .ok p _ => calculate p
  | _ => none

/-- Four-bit encoding of a value below 16, most-significant-bit first. -/
def natBits4 (n : Nat) : List Bool := [n.testBit 3, n.testBit 2, n.testBit 1, n.testBit 0]

/-- The group encoding of a literal body: every group is one continuation
bit and four value bits, the continuation bit being 1 on all groups but
the last.  Used to state the general literal-body claim. -/
def encode_groups : List Nat → List Bool
  | [] => []
  | [n] => false :: natBits4 n
  | n :: ns => true :: (natBits4 n ++ encode_groups ns)

/-- A length-type-0 operator stream whose single sub-packet overruns the
declared total sub-packet bit length: version 1, type id 6, declared
length 10, followed by an 11-bit literal. -/
def overshoot_bits : List Bool :=
  bits01 [0,0,1, 1,1,0, 0, 0,0,0,0,0,0,0,0,0,0,0,1,0,1,0, 1,1,0,1,0,0,0,1,0,1,0]

/-- An operator stream with length type 1 and a declared sub-packet count
of 0: version 0, type id 0, followed by eleven zero count bits. -/
def empty_operator_bits : List Bool :=
  bits01 [0,0,0, 0,0,0, 1, 0,0,0,0,0,0,0,0,0,0,0]

/-- The 24-bit literal example stream of the source docstring. -/
def literal_example_bits : List Bool :=
  bits01 [1,1,0, 1,0,0, 1,0,1,1,1, 1,1,1,1,0, 0,0,1,0,1, 0,0,0]

/-- An operator stream with length type 1 and a declared sub-packet count
of 2, followed by two 11-bit literals of value 10: version 0, type id 0. -/
def count_example_bits : List Bool :=
  bits01 [0,0,0, 0,0,0, 1, 0,0,0,0,0,0,0,0,0,1,0,
          1,1,0,1,0,0,0,1,0,1,0, 1,1,0,1,0,0,0,1,0,1,0]

/-- The 56-bit operator example stream of the source docstring. -/
def operator_example_bits : List Bool :=
  bits01 [0,0,1, 1,1,0, 0, 0,0,0,0,0,0,0,0,0,0,1,1,0,1,1,
          1,1,0,1,0,0,0,1,0,1,0,
          0,1,0,1,0,0,1,0,0,0,1,0,0,1,0,0,
          0,0,0,0,0,0,0]

/-- Claim C1: for each of the eight hex inputs, expanding each hex digit
to 4 bits MSB-first, decoding with from_bits and applying calculate
yields 3, 54, 7, 9, 1, 0, 0, 1 respectively. -/
theorem claim_c1_hex_evaluation :
    evaluate_hex [0xC, 0x2, 0x0, 0x0, 0xB, 0x4, 0x0, 0xA, 0x8, 0x2] = some 3 ∧
    evaluate_hex [0x0, 0x4, 0x0, 0x0, 0x5, 0xA, 0xC, 0x3, 0x3, 0x8, 0x9, 0x0] = some 54 ∧
    evaluate_hex [0x8, 0x8, 0x0, 0x0, 0x8, 0x6, 0xC, 0x3, 0xE, 0x8, 0x8, 0x1, 0x1, 0x2] =
      some 7 ∧
    evaluate_hex [0xC, 0xE, 0x0, 0x0, 0xC, 0x4, 0x3, 0xD, 0x8, 0x8, 0x1, 0x1, 0x2, 0x0] =
      some 9 ∧
    evaluate_hex [0xD, 0x8, 0x0, 0x0, 0x5, 0xA, 0xC, 0x2, 0xA, 0x8, 0xF, 0x0] = some 1 ∧
    evaluate_hex [0xF, 0x6, 0x0, 0x0, 0xB, 0xC, 0x2, 0xD, 0x8, 0xF] = some 0 ∧
    evaluate_hex [0x9, 0xC, 0x0, 0x0, 0x5, 0xA, 0xC, 0x2, 0xF, 0x8, 0xF, 0x0] = some 0 ∧
    evaluate_hex [0x9, 0xC, 0x0, 0x1, 0x4, 0x1, 0x0, 0x8, 0x0, 0x2, 0x5, 0x0, 0x3, 0x2,
      0x0, 0xF, 0x1, 0x8, 0x0, 0x2, 0x1, 0x0, 0x4, 0xA, 0x0, 0x8] = some 1 :=
  ⟨rfl, rfl, rfl, rfl, rfl, rfl, rfl, rfl⟩

/-- Claim C2, counterexample: on a length-type-0 operator stream whose
declared total sub-packet bit length 10 is overshot by its single 11-bit
sub-packet, Operator.from_bits returns the operator (having read past the
declared region to bit 33 of 33) instead of raising MalformedPacket. -/
theorem claim_c2_counterexample :
    Operator.from_bits (from_bits 34) overshoot_bits =
      .ok (.operator 1 6 [.literal 6 10]) [] ∧
    bitsToNat ((overshoot_bits.drop 6).take 1) = 0 ∧
    bitsToNat ((overshoot_bits.drop 7).take 15) = 10 ∧
    overshoot_bits.length = 33 :=
  ⟨rfl, rfl, rfl, rfl⟩

/-- Claim C3, counterexample: decoding a stream whose operator declares a
sub-packet count of 0 succeeds and returns an Operator whose sub_packets
list is empty. -/
theorem claim_c3_counterexample :
    from_bits 19 empty_operator_bits = .ok (.operator 0 0 []) [] := rfl

/-- Claim C4: decoding the 56-bit example sequence with Operator.from_bits
returns an Operator with version 1 and type id 6 whose sub-packets are a
Literal of value 10 and a Literal of value 20, in order. -/
theorem claim_c4_operator_example :
    Operator.from_bits (from_bits 57) operator_example_bits =
      .ok (.operator 1 6 [.literal 6 10, .literal 2 20])
        [false, false, false, false, false, false, false] := rfl

/-- Claim C10, counterexample: for an Operator of type id 5 with three
sub-packets whose third fails to evaluate (an empty minimum), calculate
propagates the failure instead of returning the comparison of the first
two evaluated sub-packets. -/
theorem claim_c10_counterexample :
    calculate (.operator 0 5 [.literal 0 1, .literal 0 0, .operator 0 2 []]) = none :=
  rfl

theorem readUint_exact (n : Nat) (l tail : List Bool) (h : l.length = n) :
    readUint n (l ++ tail) = some (bitsToNat l, tail) := by
  subst h
  simp [readUint, List.take_left, List.drop_left]

theorem readUint_cons1 (a : Bool) (t : List Bool) :
    readUint 1 (a :: t) = some (bitsToNat [a], t) :=
  readUint_exact 1 [a] t rfl

theorem readUint_cons3 (a b c : Bool) (t : List Bool) :
    readUint 3 (a :: b :: c :: t) = some (bitsToNat [a, b, c], t) :=
  readUint_exact 3 [a, b, c] t rfl

theorem readUint_cons11 (a b c d e g i j k l m : Bool) (t : List Bool) :
    readUint 11 (a :: b :: c :: d :: e :: g :: i :: j :: k :: l :: m :: t) =
      some (bitsToNat [a, b, c, d, e, g, i, j, k, l, m], t) :=
  readUint_exact 11 [a, b, c, d, e, g, i, j, k, l, m] t rfl

theorem readUint_some (n : Nat) (bs : List Bool) (value : Nat) (rest : List Bool)
    (h : readUint n bs = some (value, rest)) :
    rest = bs.drop n ∧ value = bitsToNat (bs.take n) ∧ n ≤ bs.length := by
  simp only [readUint] at h
  split at h
  · simp only [Option.some.injEq, Prod.mk.injEq] at h
    exact ⟨h.2.symm, h.1.symm, by assumption⟩
  · cases h

theorem bitsToNat_natBits4 : ∀ n, n < 16 → bitsToNat (natBits4 n) = n := by decide

theorem read_groups_cons_true (t3 t2 t1 t0 : Bool) (rest : List Bool) (v : Nat) :
    Literal.read_groups (true :: t3 :: t2 :: t1 :: t0 :: rest) v =
      Literal.read_groups rest (v * 16 + bitsToNat [t3, t2, t1, t0]) := rfl

theorem read_groups_cons_false (t3 t2 t1 t0 : Bool) (rest : List Bool) (v : Nat) :
    Literal.read_groups (false :: t3 :: t2 :: t1 :: t0 :: rest) v =
      some (v * 16 + bitsToNat [t3, t2, t1, t0], rest) := rfl

theorem version_sum_list_eq (ps : List Packet) :
    version_sum_list ps = (ps.map version_sum).sum := by
  induction ps with
  | nil => rfl
  | cons p ps ih => simp [version_sum_list, ih]

/-- Claim C7: version_sum of a Literal is its version field, and
version_sum of an Operator is its version field plus the sum of
version_sum over its sub-packets; in particular a single Literal of
version v has version sum v. -/
theorem claim_c7_version_sum :
    (∀ v value, version_sum (.literal v value) = v) ∧
    (∀ v t subs, version_sum (.operator v t subs) = v + (subs.map version_sum).sum) := by
  refine ⟨fun v value => rfl, fun v t subs => ?_⟩
  simp [version_sum, version_sum_list_eq]

/-- Claim C5: the 24-bit example decodes with Literal.from_bits to a
Literal of version 6 and value 2021; and in general the literal body is
parsed as repeated groups of one continuation bit and four value bits,
accumulating the value by shifting left four and adding each group in
read order, stopping after the first group whose continuation bit is 0
and leaving the remaining bits unread. -/
theorem claim_c5_literal_decoding :
    Literal.from_bits literal_example_bits = .ok (.literal 6 2021) [false, false, false] ∧
    ∀ ns tail v, ns ≠ [] → (∀ n ∈ ns, n < 16) →
      Literal.read_groups (encode_groups ns ++ tail) v =
        some (ns.foldl (fun a n => a * 16 + n) v, tail) := by
  refine ⟨rfl, fun ns => ?_⟩
  induction ns with
  | nil => intro tail v h; exact absurd rfl h
  | cons n ns ih =>
    intro tail v _ hlt
    have hn : bitsToNat [n.testBit 3, n.testBit 2, n.testBit 1, n.testBit 0] = n :=
      bitsToNat_natBits4 n (hlt n (by simp))
    cases ns with
    | nil =>
      rw [show encode_groups [n] ++ tail =
            false :: n.testBit 3 :: n.testBit 2 :: n.testBit 1 :: n.testBit 0 :: tail
          from rfl,
        read_groups_cons_false, hn]
      rfl
    | cons m ms =>
      rw [show encode_groups (n :: m :: ms) ++ tail =
            true :: n.testBit 3 :: n.testBit 2 :: n.testBit 1 :: n.testBit 0 ::
              (encode_groups (m :: ms) ++ tail)
          from rfl,
        read_groups_cons_true, hn]
      exact ih tail (v * 16 + n) (by simp) (fun x hx => hlt x (by simp [hx]))

/-- Claim C5 witness: the general group property applied to the three
nibbles 7, 14, 5 followed by two trailing bits. -/
theorem claim_c5_witness :
    Literal.read_groups (encode_groups [7, 14, 5] ++ [true, false]) 0 =
      some (2021, [true, false]) :=
  claim_c5_literal_decoding.2 [7, 14, 5] [true, false] 0 (by decide) (by decide)

/-- Claim C10, amended: for an Operator of type id 5, 6 or 7 with more
than two sub-packets, calculate evaluates every sub-packet (a failure in
any of them propagates), then returns the comparison of the first two
evaluated values, discarding the values of all later sub-packets; no
arity error is raised. -/
theorem claim_c10_amended :
    ∀ v a b rest x y zs, calculate a = some x → calculate b = some y →
      calc_list rest = some zs →
      calculate (.operator v 5 (a :: b :: rest)) = some (if y < x then 1 else 0) ∧
      calculate (.operator v 6 (a :: b :: rest)) = some (if x < y then 1 else 0) ∧
      calculate (.operator v 7 (a :: b :: rest)) = some (if x = y then 1 else 0) := by
  intro v a b rest x y zs ha hb hrest
  have hl : calc_list (a :: b :: rest) = some (x :: y :: zs) := by
    simp [calc_list, ha, hb, hrest]
  refine ⟨?_, ?_, ?_⟩ <;> simp [calculate, hl]

/-- Claim C10 witness: the comparison operators applied to three literal
sub-packets with values 3, 1 and 7; the third value is discarded. -/
theorem claim_c10_witness :
    calculate (.operator 0 5 [.literal 0 3, .literal 0 1, .literal 0 7]) = some 1 ∧
    calculate (.operator 0 6 [.literal 0 3, .literal 0 1, .literal 0 7]) = some 0 ∧
    calculate (.operator 0 7 [.literal 0 3, .literal 0 1, .literal 0 7]) = some 0 := by
  obtain ⟨h5, h6, h7⟩ :=
    claim_c10_amended 0 (.literal 0 3) (.literal 0 1) [.literal 0 7] 3 1 [7] rfl rfl rfl
  refine ⟨?_, ?_, ?_⟩
  · rw [h5]; decide
  · rw [h6]; decide
  · rw [h7]; decide

theorem sub_packet_loop_count (f : List Bool → ParseResult) :
    ∀ (k start : Nat) (bs : List Bool) (n_parsed c : Nat) (acc ps : List Packet)
      (rest : List Bool),
      Operator.sub_packet_loop f k start n_parsed (some c) none bs acc = .ok ps rest →
      n_parsed ≤ c → ps.length = acc.length + (c - n_parsed) := by
  intro k
  induction k with
  | zero =>
    intro start bs np c acc ps rest h _
    exact LoopResult.noConfusion h
  | succ k ih =>
    intro start bs np c acc ps rest h hnp
    simp only [Operator.sub_packet_loop] at h
    split at h
    · rename_i hcond
      have hlt : np < c := by simpa [lt_inf] using hcond
      split at h
      · rename_i p rest' hf
        have := ih start rest' (np + 1) c (acc ++ [p]) ps rest h (by omega)
        simp only [List.length_append, List.length_cons, List.length_nil] at this
        omega
      · exact LoopResult.noConfusion h
      · exact LoopResult.noConfusion h
    · rename_i hcond
      have hge : ¬ np < c := by simpa [lt_inf] using hcond
      injection h with h1 h2
      subst h1
      omega

theorem sub_packet_loop_budget (f : List Bool → ParseResult)
    (hf : ∀ bs p rest, f bs = .ok p rest → rest.length ≤ bs.length) :
    ∀ (k start : Nat) (bs : List Bool) (n_parsed sb : Nat) (acc ps : List Packet)
      (rest : List Bool),
      Operator.sub_packet_loop f k start n_parsed none (some sb) bs acc = .ok ps rest →
      bs.length ≤ start → sb + rest.length ≤ start := by
  intro k
  induction k with
  | zero =>
    intro start bs np sb acc ps rest h _
    exact LoopResult.noConfusion h
  | succ k ih =>
    intro start bs np sb acc ps rest h hle
    simp only [Operator.sub_packet_loop] at h
    split at h
    · split at h
      · rename_i p rest' hfeq
        exact ih start rest' (np + 1) sb (acc ++ [p]) ps rest h
          (le_trans (hf bs p rest' hfeq) hle)
      · exact LoopResult.noConfusion h
      · exact LoopResult.noConfusion h
    · rename_i hcond
      have hge : ¬ start - bs.length < sb := by simpa [lt_inf] using hcond
      injection h with h1 h2
      subst h2
      omega

theorem sub_packet_loop_consumes (f : List Bool → ParseResult)
    (hf : ∀ bs p rest, f bs = .ok p rest → rest.length ≤ bs.length) :
    ∀ (k start : Nat) (n_parsed : Nat) (ns sb : Option Nat) (bs : List Bool)
      (acc ps : List Packet) (rest : List Bool),
      Operator.sub_packet_loop f k start n_parsed ns sb bs acc = .ok ps rest →
      rest.length ≤ bs.length := by
  intro k
  induction k with
  | zero =>
    intro start np ns sb bs acc ps rest h
    exact LoopResult.noConfusion h
  | succ k ih =>
    intro start np ns sb bs acc ps rest h
    simp only [Operator.sub_packet_loop] at h
    split at h
    · split at h
      · rename_i p rest' hfeq
        exact le_trans (ih start (np + 1) ns sb rest' (acc ++ [p]) ps rest h)
          (hf bs p rest' hfeq)
      · exact LoopResult.noConfusion h
      · exact LoopResult.noConfusion h
    · injection h with h1 h2
      subst h2
      exact le_refl _

theorem sub_packet_loop_fuel (f : List Bool → ParseResult) (B : Nat)
    (hf1 : ∀ bs p rest, f bs = .ok p rest → rest.length < bs.length)
    (hf2 : ∀ bs, bs.length ≤ B → f bs ≠ .fuelOut) :
    ∀ (k start : Nat) (n_parsed : Nat) (ns sb : Option Nat) (bs : List Bool)
      (acc : List Packet), bs.length < k → bs.length ≤ B →
      Operator.sub_packet_loop f k start n_parsed ns sb bs acc ≠ .fuelOut := by
  intro k
  induction k with
  | zero =>
    intro start np ns sb bs acc hk _
    omega
  | succ k ih =>
    intro start np ns sb bs acc hk hB h
    simp only [Operator.sub_packet_loop] at h
    split at h
    · split at h
      · rename_i p rest' hfeq
        have hc := hf1 bs p rest' hfeq
        exact ih start (np + 1) ns sb rest' (acc ++ [p]) (by omega) (by omega) h
      · exact LoopResult.noConfusion h
      · rename_i hfeq
        exact hf2 bs hB hfeq
    · exact LoopResult.noConfusion h

theorem run_loop_ok (f : List Bool → ParseResult) (version type_id : Nat)
    (ns sb : Option Nat) (bs4 : List Bool) (p : Packet) (rest : List Bool)
    (h : Operator.run_loop f version type_id ns sb bs4 = .ok p rest) :
    ∃ subs, p = .operator version type_id subs ∧
      Operator.sub_packet_loop f (bs4.length + 1) bs4.length 0 ns sb bs4 [] =
        .ok subs rest := by
  simp only [Operator.run_loop] at h
  split at h
  · rename_i subs rest' hl
    injection h with h1 h2
    subst h2
    exact ⟨subs, h1.symm, hl⟩
  · exact ParseResult.noConfusion h
  · exact ParseResult.noConfusion h

theorem run_loop_fuelOut (f : List Bool → ParseResult) (version type_id : Nat)
    (ns sb : Option Nat) (bs4 : List Bool)
    (h : Operator.run_loop f version type_id ns sb bs4 = .fuelOut) :
    Operator.sub_packet_loop f (bs4.length + 1) bs4.length 0 ns sb bs4 [] = .fuelOut := by
  simp only [Operator.run_loop] at h
  split at h
  · exact ParseResult.noConfusion h
  · exact ParseResult.noConfusion h
  · rename_i hl
    exact hl

theorem read_groups_consumes :
    ∀ (fuel : Nat) (bs : List Bool), bs.length ≤ fuel →
      ∀ (v value : Nat) (rest : List Bool),
        Literal.read_groups bs v = some (value, rest) → rest.length + 5 ≤ bs.length := by
  intro fuel
  induction fuel with
  | zero =>
    intro bs hbs v value rest h
    cases bs with
    | nil => exact Option.noConfusion h
    | cons a l => simp at hbs
  | succ fuel ih =>
    intro bs hbs v value rest h
    rcases bs with _ | ⟨c, _ | ⟨b3, _ | ⟨b2, _ | ⟨b1, _ | ⟨b0, rest'⟩⟩⟩⟩⟩
    · exact Option.noConfusion h
    · exact Option.noConfusion h
    · exact Option.noConfusion h
    · exact Option.noConfusion h
    · exact Option.noConfusion h
    · cases c
      · rw [read_groups_cons_false] at h
        injection h with h'
        injection h' with h1 h2
        subst h2
        simp
      · rw [read_groups_cons_true] at h
        have hlen : rest'.length ≤ fuel := by
          simp only [List.length_cons] at hbs
          omega
        have := ih rest' hlen _ _ _ h
        simp only [List.length_cons]
        omega

theorem lit_from_bits_consumes :
    ∀ (bs : List Bool) (p : Packet) (rest : List Bool),
      Literal.from_bits bs = .ok p rest → rest.length + 11 ≤ bs.length := by
  intro bs p rest h
  simp only [Literal.from_bits] at h
  split at h
  · exact ParseResult.noConfusion h
  · rename_i version bs1 h3
    split at h
    · exact ParseResult.noConfusion h
    · rename_i type_id bs2 h3'
      split at h
      · exact ParseResult.noConfusion h
      · split at h
        · exact ParseResult.noConfusion h
        · rename_i value bs3 hg
          injection h with hp hr
          subst hr
          obtain ⟨hb1, -, hl1⟩ := readUint_some 3 bs version bs1 h3
          obtain ⟨hb2, -, hl2⟩ := readUint_some 3 bs1 type_id bs2 h3'
          subst hb1
          subst hb2
          have := read_groups_consumes ((bs.drop 3).drop 3).length _ le_rfl _ _ _ hg
          simp only [List.length_drop] at this hl2 ⊢
          omega

theorem lit_no_fuelOut : ∀ bs : List Bool, Literal.from_bits bs ≠ .fuelOut := by
  intro bs h
  simp only [Literal.from_bits] at h
  split at h
  · exact ParseResult.noConfusion h
  · split at h
    · exact ParseResult.noConfusion h
    · split at h
      · exact ParseResult.noConfusion h
      · split at h
        · exact ParseResult.noConfusion h
        · exact ParseResult.noConfusion h

theorem op_from_bits_consumes (f : List Bool → ParseResult)
    (hf : ∀ bs p rest, f bs = .ok p rest → rest.length ≤ bs.length) :
    ∀ (bs : List Bool) (p : Packet) (rest : List Bool),
      Operator.from_bits f bs = .ok p rest → rest.length + 18 ≤ bs.length := by
  intro bs p rest h
  simp only [Operator.from_bits] at h
  split at h
  · exact ParseResult.noConfusion h
  · rename_i version bs1 h3
    split at h
    · exact ParseResult.noConfusion h
    · rename_i type_id bs2 h3'
      split at h
      · exact ParseResult.noConfusion h
      · split at h
        · exact ParseResult.noConfusion h
        · rename_i ltid bs3 h1r
          obtain ⟨hb1, -, hl1⟩ := readUint_some 3 bs version bs1 h3
          obtain ⟨hb2, -, hl2⟩ := readUint_some 3 bs1 type_id bs2 h3'
          obtain ⟨hb3, -, hl3⟩ := readUint_some 1 bs2 ltid bs3 h1r
          split at h
          · split at h
            · exact ParseResult.noConfusion h
            · rename_i sb bs4 h15
              obtain ⟨hb4, -, hl4⟩ := readUint_some 15 bs3 sb bs4 h15
              obtain ⟨subs, -, hloop⟩ := run_loop_ok f version type_id none (some sb) bs4
                p rest h
              have := sub_packet_loop_consumes f hf (bs4.length + 1) bs4.length 0 none
                (some sb) bs4 [] subs rest hloop
              subst hb1; subst hb2; subst hb3; subst hb4
              simp only [List.length_drop] at this hl2 hl3 hl4 ⊢
              omega
          · split at h
            · exact ParseResult.noConfusion h
            · rename_i c bs4 h11
              obtain ⟨hb4, -, hl4⟩ := readUint_some 11 bs3 c bs4 h11
              obtain ⟨subs, -, hloop⟩ := run_loop_ok f version type_id (some c) none bs4
                p rest h
              have := sub_packet_loop_consumes f hf (bs4.length + 1) bs4.length 0 (some c)
                none bs4 [] subs rest hloop
              subst hb1; subst hb2; subst hb3; subst hb4
              simp only [List.length_drop] at this hl2 hl3 hl4 ⊢
              omega

theorem from_bits_consumes :
    ∀ (d : Nat) (bs : List Bool) (p : Packet) (rest : List Bool),
      from_bits d bs = .ok p rest → rest.length + 11 ≤ bs.length := by
  intro d
  induction d with
  | zero =>
    intro bs p rest h
    exact ParseResult.noConfusion h
  | succ d ih =>
    intro bs p rest h
    simp only [from_bits] at h
    split at h
    · exact ParseResult.noConfusion h
    · split at h
      · exact lit_from_bits_consumes bs p rest h
      · have := op_from_bits_consumes (from_bits d)
          (fun bs' p' r' h' => by have := ih bs' p' r' h'; omega) bs p rest h
        omega

theorem op_no_fuelOut (f : List Bool → ParseResult) (bs : List Bool)
    (hf1 : ∀ bs' p rest, f bs' = .ok p rest → rest.length < bs'.length)
    (hf2 : ∀ bs', bs'.length + 18 ≤ bs.length → f bs' ≠ .fuelOut) :
    Operator.from_bits f bs ≠ .fuelOut := by
  intro h
  simp only [Operator.from_bits] at h
  split at h
  · exact ParseResult.noConfusion h
  · rename_i version bs1 h3
    split at h
    · exact ParseResult.noConfusion h
    · rename_i type_id bs2 h3'
      split at h
      · exact ParseResult.noConfusion h
      · split at h
        · exact ParseResult.noConfusion h
        · rename_i ltid bs3 h1r
          obtain ⟨hb1, -, hl1⟩ := readUint_some 3 bs version bs1 h3
          obtain ⟨hb2, -, hl2⟩ := readUint_some 3 bs1 type_id bs2 h3'
          obtain ⟨hb3, -, hl3⟩ := readUint_some 1 bs2 ltid bs3 h1r
          split at h
          · split at h
            · exact ParseResult.noConfusion h
            · rename_i sb bs4 h15
              obtain ⟨hb4, -, hl4⟩ := readUint_some 15 bs3 sb bs4 h15
              refine sub_packet_loop_fuel f bs4.length hf1 ?_ (bs4.length + 1) bs4.length
                0 none (some sb) bs4 [] (by omega) le_rfl
                (run_loop_fuelOut f version type_id none (some sb) bs4 h)
              intro bs' hlen'
              refine hf2 bs' ?_
              subst hb1; subst hb2; subst hb3; subst hb4
              simp only [List.length_drop] at hlen' hl2 hl3 hl4 ⊢
              omega
          · split at h
            · exact ParseResult.noConfusion h
            · rename_i c bs4 h11
              obtain ⟨hb4, -, hl4⟩ := readUint_some 11 bs3 c bs4 h11
              refine sub_packet_loop_fuel f bs4.length hf1 ?_ (bs4.length + 1) bs4.length
                0 (some c) none bs4 [] (by omega) le_rfl
                (run_loop_fuelOut f version type_id (some c) none bs4 h)
              intro bs' hlen'
              refine hf2 bs' ?_
              subst hb1; subst hb2; subst hb3; subst hb4
              simp only [List.length_drop] at hlen' hl2 hl3 hl4 ⊢
              omega

/-- Claim C9: decoding terminates on every finite bit stream; with fuel
exceeding the number of unread bits, from_bits never exhausts its fuel,
because every recursive step strictly consumes bits and each sub-packet
loop iteration advances through a strictly shrinking stream. -/
theorem claim_c9_termination :
    ∀ (d : Nat) (bs : List Bool), bs.length < d → from_bits d bs ≠ .fuelOut := by
  intro d
  induction d with
  | zero =>
    intro bs h
    omega
  | succ d ih =>
    intro bs hlen h
    simp only [from_bits] at h
    split at h
    · exact ParseResult.noConfusion h
    · split at h
      · exact lit_no_fuelOut bs h
      · refine op_no_fuelOut (from_bits d) bs ?_ ?_ h
        · intro bs' p rest h'
          have := from_bits_consumes d bs' p rest h'
          omega
        · intro bs' hlen' h''
          exact ih bs' (by omega) h''

/-- Claim C9 witness: the termination bound applied to an 11-bit literal
stream with fuel 12. -/
theorem claim_c9_witness :
    from_bits 12 (bits01 [1, 1, 0, 1, 0, 0, 0, 1, 0, 1, 0]) ≠ .fuelOut :=
  claim_c9_termination 12 (bits01 [1, 1, 0, 1, 0, 0, 0, 1, 0, 1, 0]) (by decide)

/-- Claim C2, amended: a length-type-0 operator whose declared
total_sub_bit_length is not exactly matched is not rejected; the loop
simply stops at the first moment the declared length is reached or
exceeded, so on every successful length-type-0 decode the bits consumed
by the sub-packets are at least the declared length (they can exceed it,
as the counterexample shows), and no MalformedPacket is raised. -/
theorem claim_c2_amended :
    ∀ (d : Nat) (bs : List Bool) (p : Packet) (rest : List Bool),
      Operator.from_bits (from_bits d) bs = .ok p rest →
      bitsToNat ((bs.drop 6).take 1) = 0 →
      bitsToNat ((bs.drop 7).take 15) + 22 + rest.length ≤ bs.length := by
  intro d bs p rest h hltid
  have hf : ∀ bs' p' r', from_bits d bs' = .ok p' r' → r'.length ≤ bs'.length :=
    fun bs' p' r' h' => by have := from_bits_consumes d bs' p' r' h'; omega
  simp only [Operator.from_bits] at h
  split at h
  · exact ParseResult.noConfusion h
  · rename_i version bs1 h3
    split at h
    · exact ParseResult.noConfusion h
    · rename_i type_id bs2 h3'
      split at h
      · exact ParseResult.noConfusion h
      · split at h
        · exact ParseResult.noConfusion h
        · rename_i ltid bs3 h1r
          obtain ⟨hb1, -, hl1⟩ := readUint_some 3 bs version bs1 h3
          obtain ⟨hb2, -, hl2⟩ := readUint_some 3 bs1 type_id bs2 h3'
          obtain ⟨hb3, hv3, hl3⟩ := readUint_some 1 bs2 ltid bs3 h1r
          subst hb1; subst hb2; subst hb3
          have e6 : ((bs.drop 3).drop 3) = bs.drop 6 := by rw [List.drop_drop]
          have e7 : ((bs.drop 6).drop 1) = bs.drop 7 := by rw [List.drop_drop]
          rw [e6] at hv3 hl3 h
          rw [e7] at h
          split at h
          · split at h
            · exact ParseResult.noConfusion h
            · rename_i sb bs4 h15
              obtain ⟨hb4, hv4, hl4⟩ := readUint_some 15 (bs.drop 7) sb bs4 h15
              obtain ⟨subs, -, hloop⟩ :=
                run_loop_ok (from_bits d) version type_id none (some sb) bs4 p rest h
              have hbud := sub_packet_loop_budget (from_bits d) hf (bs4.length + 1)
                bs4.length bs4 0 sb [] subs rest hloop le_rfl
              subst hb4
              rw [← hv4]
              simp only [List.length_drop] at hbud hl2 hl3 hl4 ⊢
              omega
          · rename_i hc
            exact absurd (hv3.trans hltid) hc

/-- Claim C2, amended, witness: on the 33-bit overshooting stream the
declared length 10 plus the 22 header bits plus the empty rest stays
within the 33 stream bits. -/
theorem claim_c2_amended_witness :
    bitsToNat ((overshoot_bits.drop 7).take 15) + 22 + ([] : List Bool).length ≤
      overshoot_bits.length :=
  claim_c2_amended 33 overshoot_bits (.operator 1 6 [.literal 6 10]) [] rfl rfl

/-- Claim C3, amended: the decoder does produce an Operator with an empty
sub_packets list: whenever the length type bit is 1 and the declared
11-bit sub-packet count is 0, Operator.from_bits succeeds with no
sub-packets, for any version and any non-literal type id. -/
theorem claim_c3_amended :
    ∀ (f : List Bool → ParseResult) (b2 b1 b0 t2 t1 t0 : Bool) (tail : List Bool),
      bitsToNat [t2, t1, t0] ≠ 4 →
      Operator.from_bits f (b2 :: b1 :: b0 :: t2 :: t1 :: t0 :: true :: false :: false ::
          false :: false :: false :: false :: false :: false :: false :: false :: false ::
          tail) =
        .ok (.operator (bitsToNat [b2, b1, b0]) (bitsToNat [t2, t1, t0]) []) tail := by
  intro f b2 b1 b0 t2 t1 t0 tail ht
  cases t2 <;> cases t1 <;> cases t0 <;> first
    | exact absurd rfl ht
    | simp [Operator.from_bits, readUint_cons3, readUint_cons1, readUint_cons11,
        Operator.run_loop, Operator.sub_packet_loop, lt_inf, bitsToNat]

/-- Claim C3, amended, witness: the count-0 rule applied to the all-zero
header with empty tail. -/
theorem claim_c3_amended_witness :
    Operator.from_bits (from_bits 0) (false :: false :: false :: false :: false :: false ::
        true :: false :: false :: false :: false :: false :: false :: false :: false ::
        false :: false :: false :: []) =
      .ok (.operator (bitsToNat [false, false, false]) (bitsToNat [false, false, false]) [])
        [] :=
  claim_c3_amended (from_bits 0) false false false false false false [] (by decide)

/-- Claim C6: for every operator packet whose length type bit is 1, the
decoder reads an 11-bit unsigned sub-packet count and, whenever decoding
succeeds, the operator holds exactly that many sub-packets, independently
of how many bits those sub-packets consumed and of the sub-packet decoder
used. -/
theorem claim_c6_count_framing :
    ∀ (f : List Bool → ParseResult) (bs : List Bool) (v t : Nat) (subs : List Packet)
      (rest : List Bool),
      Operator.from_bits f bs = .ok (.operator v t subs) rest →
      bitsToNat ((bs.drop 6).take 1) = 1 →
      subs.length = bitsToNat ((bs.drop 7).take 11) := by
  intro f bs v t subs rest h hltid
  simp only [Operator.from_bits] at h
  split at h
  · exact ParseResult.noConfusion h
  · rename_i version bs1 h3
    split at h
    · exact ParseResult.noConfusion h
    · rename_i type_id bs2 h3'
      split at h
      · exact ParseResult.noConfusion h
      · split at h
        · exact ParseResult.noConfusion h
        · rename_i ltid bs3 h1r
          obtain ⟨hb1, -, hl1⟩ := readUint_some 3 bs version bs1 h3
          obtain ⟨hb2, -, hl2⟩ := readUint_some 3 bs1 type_id bs2 h3'
          obtain ⟨hb3, hv3, hl3⟩ := readUint_some 1 bs2 ltid bs3 h1r
          subst hb1; subst hb2; subst hb3
          have e6 : ((bs.drop 3).drop 3) = bs.drop 6 := by rw [List.drop_drop]
          have e7 : ((bs.drop 6).drop 1) = bs.drop 7 := by rw [List.drop_drop]
          rw [e6] at hv3 h
          rw [e7] at h
          split at h
          · rename_i hc
            rw [hv3] at hc
            omega
          · split at h
            · exact ParseResult.noConfusion h
            · rename_i c bs4 h11
              obtain ⟨hb4, hv4, hl4⟩ := readUint_some 11 (bs.drop 7) c bs4 h11
              obtain ⟨subs', hps, hloop⟩ :=
                run_loop_ok f version type_id (some c) none bs4 (.operator v t subs) rest h
              injection hps with hv ht hsubs
              have hcount := sub_packet_loop_count f (bs4.length + 1) bs4.length bs4 0 c []
                subs' rest hloop (Nat.zero_le c)
              rw [hsubs, hcount, hv4]
              simp

/-- Claim C6 witness: the count rule applied to a stream declaring two
sub-packets followed by two 11-bit literals. -/
theorem claim_c6_witness :
    ([Packet.literal 6 10, Packet.literal 6 10] : List Packet).length =
      bitsToNat ((count_example_bits.drop 7).take 11) :=
  claim_c6_count_framing (from_bits 41) count_example_bits 0 0
    [Packet.literal 6 10, Packet.literal 6 10] [] rfl rfl

/-- Claim C8: decoding fails with MalformedPacket whenever the read
type id disagrees with the variant: Literal.from_bits fails when the
3-bit type id it reads is not 4, and Operator.from_bits fails when the
3-bit type id it reads equals 4. -/
theorem claim_c8_type_id_checks :
    (∀ (v2 v1 v0 t2 t1 t0 : Bool) (rest : List Bool), bitsToNat [t2, t1, t0] ≠ 4 →
      Literal.from_bits (v2 :: v1 :: v0 :: t2 :: t1 :: t0 :: rest) = .err .malformed) ∧
    (∀ (f : List Bool → ParseResult) (v2 v1 v0 t2 t1 t0 : Bool) (rest : List Bool),
      bitsToNat [t2, t1, t0] = 4 →
      Operator.from_bits f (v2 :: v1 :: v0 :: t2 :: t1 :: t0 :: rest) = .err .malformed) := by
  constructor
  · intro v2 v1 v0 t2 t1 t0 rest ht
    cases t2 <;> cases t1 <;> cases t0 <;> first
      | exact absurd rfl ht
      | simp [Literal.from_bits, readUint_cons3, bitsToNat]
  · intro f v2 v1 v0 t2 t1 t0 rest ht
    cases t2 <;> cases t1 <;> cases t0 <;> first
      | exact absurd ht (by decide)
      | simp [Operator.from_bits, readUint_cons3, bitsToNat]

/-- Claim C8 witness: a type-0 header rejected by Literal.from_bits and a
type-4 header rejected by Operator.from_bits. -/
theorem claim_c8_witness :
    Literal.from_bits [false, false, false, false, false, false] = .err .malformed ∧
    Operator.from_bits (from_bits 0) [false, false, false, true, false, false] =
      .err .malformed :=
  ⟨claim_c8_type_id_checks.1 false false false false false false [] (by decide),
   claim_c8_type_id_checks.2 (from_bits 0) false false false true false false [] (by decide)⟩

end Day16
